import Mathlib

/-!
Verification of the PapillonNDL excerpt: `STCoherentElastic`
(`include/PapillonNDL/st_coherent_elastic.hpp`) and `GeneralEvaporation`
(`src/general_evaporation.cpp`).  Doubles are modelled as exact rationals,
`std::vector<double>` as `List ℚ`, and the injected random-variate source
`std::function<double()>` as a stream `ℕ → ℚ` together with an explicit
draw counter.  Out-of-range vector indexing (undefined behaviour in C++)
is modelled by `Option`-valued lookup.
-/

namespace PapillonNDL

/-- Index returned by `std::lower_bound(begin, end, E)` on a list: the first
position whose element is `≥ E` (equals the length when no such element
exists).  On the sorted vectors the C++ code searches, this is exactly the
iterator `std::lower_bound` produces. -/
def lowerBound : List ℚ → ℚ → ℕ
  | [], _ => 0
  | x :: xs, E => if E ≤ x then 0 else lowerBound xs E + 1

theorem lowerBound_le_length (l : List ℚ) (E : ℚ) : lowerBound l E ≤ l.length := by
  induction l with
  | nil => simp [lowerBound]
  | cons x xs ih =>
      by_cases h : E ≤ x <;> simp [lowerBound, h]
      exact ih

theorem getD_lt_of_lt_lowerBound (l : List ℚ) (E : ℚ) (i : ℕ) (d : ℚ)
    (h : i < lowerBound l E) : l.getD i d < E := by
  induction l generalizing i with
  | nil => simp [lowerBound] at h
  | cons x xs ih =>
      by_cases hx : E ≤ x
      · simp [lowerBound, hx] at h
      · cases i with
        | zero => simpa using lt_of_not_le hx
        | succ i =>
            simp only [lowerBound, hx, if_false] at h
            simpa using ih i (Nat.lt_of_succ_lt_succ h)

theorem le_getD_lowerBound (l : List ℚ) (E : ℚ) (d : ℚ)
    (h : lowerBound l E < l.length) : E ≤ l.getD (lowerBound l E) d := by
  induction l with
  | nil => simp at h
  | cons x xs ih =>
      by_cases hx : E ≤ x
      · simp [lowerBound, hx]
      · simp only [lowerBound, hx, if_false] at h ⊢
        simp only [List.getD_cons_succ]
        exact ih (Nat.lt_of_succ_lt_succ h)

theorem lowerBound_le_of_le (l : List ℚ) (E : ℚ) (i : ℕ) (d : ℚ)
    (hi : i < l.length) (h : E ≤ l.getD i d) : lowerBound l E ≤ i := by
  induction l generalizing i with
  | nil => simp at hi
  | cons x xs ih =>
      by_cases hx : E ≤ x
      · simp [lowerBound, hx]
      · cases i with
        | zero => simp at h; exact absurd h hx
        | succ i =>
            simp only [lowerBound, hx, if_false]
            exact Nat.succ_le_succ
              (ih i (Nat.lt_of_succ_lt_succ hi) (by simpa using h))

theorem le_lowerBound_of_lt (l : List ℚ) (E : ℚ) (i : ℕ)
    (hi : i ≤ l.length) (h : ∀ j, j < i → l.getD j 0 < E) :
    i ≤ lowerBound l E := by
  induction l generalizing i with
  | nil => simpa [lowerBound] using hi
  | cons x xs ih =>
      cases i with
      | zero => exact Nat.zero_le _
      | succ i =>
          have hx : x < E := by simpa using h 0 (Nat.succ_pos i)
          simp only [lowerBound, not_le.mpr hx, if_false]
          refine Nat.succ_le_succ (ih i (by simpa using hi) ?_)
          intro j hj
          simpa using h (j + 1) (Nat.succ_lt_succ hj)

theorem one_le_lowerBound (l : List ℚ) (E : ℚ) (hne : l ≠ [])
    (h : l.getD 0 0 < E) : 1 ≤ lowerBound l E := by
  cases l with
  | nil => exact absurd rfl hne
  | cons x xs =>
      simp only [List.getD_cons_zero] at h
      simp [lowerBound, not_le.mpr h]

theorem getD_nonneg (l : List ℚ) (i : ℕ) (h : ∀ e ∈ l, 0 ≤ e) :
    0 ≤ l.getD i 0 := by
  by_cases hi : i < l.length
  · rw [List.getD_eq_getElem _ _ hi]
    exact h _ (List.getElem_mem hi)
  · rw [List.getD_eq_default _ _ (le_of_not_lt hi)]

theorem chain'_lt_getD (l : List ℚ) (hc : List.Chain' (· < ·) l)
    (j i : ℕ) (hj : j < i) (hi : i < l.length) :
    l.getD j 0 < l.getD i 0 := by
  have hp : List.Pairwise (· < ·) l := (List.chain'_iff_pairwise).mp hc
  have hjl : j < l.length := lt_trans hj hi
  rw [List.getD_eq_getElem _ _ hjl, List.getD_eq_getElem _ _ hi]
  exact List.pairwise_iff_getElem.mp hp j i hjl hi hj

/-- Coherent elastic scattering data: the two parallel vectors
`bragg_edges_` and `structure_factor_sum_` of `STCoherentElastic`. -/
structure STCoherentElastic where
  bragg_edges : List ℚ
  structure_factor_sum : List ℚ

/-- Modelled from the spec: the constructor `STCoherentElastic(const ACE&)`
is declared in the header but its definition is not under `src/`; the
spec's data model (§3) states the post-construction invariant: two
parallel sequences of equal length, with `bragg_edges` strictly increasing
physical energies (in MeV, hence nonnegative). -/
def STCoherentElastic.WellFormed (st : STCoherentElastic) : Prop :=
  List.Chain' (· < ·) st.bragg_edges ∧
  (∀ e ∈ st.bragg_edges, 0 ≤ e) ∧
  st.structure_factor_sum.length = st.bragg_edges.length

/-- `bragg_edges_.front()`: first element of a vector. -/
def front (l : List ℚ) : ℚ := l.getD 0 0

/-- `bragg_edges_.back()`: last element of a vector. -/
def back (l : List ℚ) : ℚ := l.getD (l.length - 1) 0

/-- `STCoherentElastic::xs(E)`: the coherent elastic cross section.
Mirrors the C++ branch structure: empty table → 0; strictly between
`front()` and `back()` → `structure_factor_sum_[l] / E` with
`l = distance(begin, lower_bound(E)) - 1`; below `front()` → 0;
otherwise → `structure_factor_sum_.back() / E`. -/
def xs (st : STCoherentElastic) (E : ℚ) : ℚ :=
  if st.bragg_edges.length = 0 then 0
  else if front st.bragg_edges < E ∧ E < back st.bragg_edges then
    st.structure_factor_sum.getD (lowerBound st.bragg_edges E - 1) 0 / E
  else if E < front st.bragg_edges then 0
  else st.structure_factor_sum.getD (st.structure_factor_sum.length - 1) 0 / E

/-- The Bragg edge `Ei` selected inside
`STCoherentElastic::sample_angle_energy`: same bracketing branches as
`xs`, but the low branch yields `Ei = 0` and the high branch
`Ei = bragg_edges_.back()`. -/
def braggEi (st : STCoherentElastic) (E_in : ℚ) : ℚ :=
  if front st.bragg_edges < E_in ∧ E_in < back st.bragg_edges then
    st.bragg_edges.getD (lowerBound st.bragg_edges E_in - 1) 0
  else if E_in < front st.bragg_edges then 0
  else back st.bragg_edges

/-- `STCoherentElastic::sample_angle_energy(E_in, rng)`: returns the pair
`(mu, E_out)`.  The rng argument is accepted and ignored, exactly as in
the C++ (`std::function<double()> /*rng*/`).  Empty table → `{1., 0.}`;
otherwise `mu = 1 - 2 Ei / E_in` and `E_out = E_in`. -/
def sample_angle_energy (st : STCoherentElastic) (E_in : ℚ)
    (_rng : ℕ → ℚ) : ℚ × ℚ :=
  if st.bragg_edges.length = 0 then (1, 0)
  else (1 - 2 * braggEi st E_in / E_in, E_in)

/-- `STCoherentElastic::angle_pdf`: always `std::nullopt`. -/
def angle_pdf (_st : STCoherentElastic) (_E_in _mu : ℚ) : Option ℚ := none

/-- `STCoherentElastic::pdf`: always `std::nullopt`. -/
def pdf (_st : STCoherentElastic) (_E_in _mu _E_out : ℚ) : Option ℚ := none

/-- The worked example table of the spec (§8): three Bragg edges with
structure-factor sums `[10, 20, 30]`. -/
def stEx : STCoherentElastic := ⟨[1, 2, 3], [10, 20, 30]⟩

/-- An `STCoherentElastic` holding zero Bragg edges. -/
def stEmpty : STCoherentElastic := ⟨[], []⟩

/-- A `GeneralEvaporation` after construction: the temperature law
`temperature_` (a `Tabulated1D`, modelled as an abstract function) and the
probability-bin bounds `bin_bounds_`. -/
structure GeneralEvaporation where
  temperature : ℚ → ℚ
  bin_bounds : List ℚ

/-- The bin index selected in `GeneralEvaporation::sample_energy`:
`static_cast<size_t>(std::floor(bin_bounds_.size() * xi1))`. -/
def evapBin (bounds : List ℚ) (xi1 : ℚ) : ℕ :=
  (⌊(bounds.length : ℚ) * xi1⌋).toNat

/-- The dimensionless factor `Chi` of `GeneralEvaporation::sample_energy`:
`(bin_bounds_[bin + 1] - bin_bounds_[bin]) * xi2 + bin_bounds_[bin]`.
The two vector accesses are undefined behaviour in C++ when the index is
out of range; that branch is embedded as `none`. -/
def evapChi (bounds : List ℚ) (xi1 xi2 : ℚ) : Option ℚ :=
  match bounds[evapBin bounds xi1]?, bounds[evapBin bounds xi1 + 1]? with
  | some lo, some hi => some ((hi - lo) * xi2 + lo)
  | _, _ => none

/-- `GeneralEvaporation::sample_energy(E_in, rng)`.  The injected
`std::function<double()> rng` is modelled as the stream `rng : ℕ → ℚ` of
successive uniform variates together with the index `k` of the next draw;
the second component of the result is the updated draw index, so it
records how many variates the call consumed.  The body mirrors the C++:
`T = temperature_(E_in)`, first draw `xi1 = rng()`, bin selection, second
draw `xi2 = rng()`, then `Chi * T`. -/
def sample_energy (ge : GeneralEvaporation) (E_in : ℚ) (rng : ℕ → ℚ)
    (k : ℕ) : Option ℚ × ℕ :=
  let T := ge.temperature E_in
  let xi1 := rng k
  let xi2 := rng (k + 1)
  ((evapChi ge.bin_bounds xi1 xi2).map (fun chi => chi * T), k + 2)

/-- The interpolation codes of `Interpolation` (ENDF/ACE codes 1–5). -/
inductive Interpolation where
  | Histogram
  | LinLin
  | LinLog
  | LogLin
  | LogLog
  | Other
deriving DecidableEq

/-- Conversion `ace.xss<Interpolation>`: an XSS entry read as an
interpolation code. -/
def Interpolation.fromCode (n : ℕ) : Interpolation :=
  if n = 1 then .Histogram
  else if n = 2 then .LinLin
  else if n = 3 then .LinLog
  else if n = 4 then .LogLin
  else if n = 5 then .LogLog
  else .Other

/-- `ace.xss<uint32_t>(i)`: scalar read of the flat XSS array at offset
`i`, converted to an unsigned integer (truncation of a nonnegative
stored count). -/
def xssN (a : List ℚ) (i : ℕ) : ℕ := (⌊a.getD i 0⌋).toNat

/-- `ace.xss(i, n)`: contiguous-range read of `n` doubles starting at
offset `i`. -/
def xssRange (a : List ℚ) (i n : ℕ) : List ℚ := (a.drop i).take n

/-- `ace.xss<uint32_t>(i, n)`: contiguous-range read of `n` unsigned
integers. -/
def xssNRange (a : List ℚ) (i n : ℕ) : List ℕ :=
  (xssRange a i n).map (fun q => (⌊q⌋).toNat)

/-- `ace.xss<Interpolation>(i, n)`: contiguous-range read of `n`
interpolation codes. -/
def xssIRange (a : List ℚ) (i n : ℕ) : List Interpolation :=
  (xssRange a i n).map (fun q => Interpolation.fromCode (⌊q⌋).toNat)

/-- The fields read by the `GeneralEvaporation` constructor from the flat
XSS array. -/
structure GEParsed where
  NR : ℕ
  NBT : List ℕ
  INT : List Interpolation
  energy : List ℚ
  temperature : List ℚ
  NX : ℕ
  bin_bounds : List ℚ
deriving DecidableEq

/-- `GeneralEvaporation::GeneralEvaporation(const ACE& ace, size_t i)`:
the offset arithmetic of the constructor, field for field.  Note that
`bin_bounds` is read with `ace.xss(i + 2 + 2*NR + 2*NE, NX)` — the same
offset at which the count `NX` itself was just read. -/
def generalEvaporationInit (a : List ℚ) (i : ℕ) : GEParsed :=
  let NR := xssN a i
  let NE := xssN a (i + 1 + 2 * NR)
  let NBT := if NR = 0 then [NE] else xssNRange a (i + 1) NR
  let INT := if NR = 0 then [Interpolation.LinLin] else xssIRange a (i + 1 + NR) NR
  let energy := xssRange a (i + 2 + 2 * NR) NE
  let temperature := xssRange a (i + 2 + 2 * NR + NE) NE
  let NX := xssN a (i + 2 + 2 * NR + 2 * NE)
  let bin_bounds := xssRange a (i + 2 + 2 * NR + 2 * NE) NX
  ⟨NR, NBT, INT, energy, temperature, NX, bin_bounds⟩

/-- The two-bin example of the spec (§8): `bin_bounds = [0, 1, 2]`, paired
here with the constant unit temperature law. -/
def geEx : GeneralEvaporation := ⟨fun _ => 1, [0, 1, 2]⟩

/-- A concrete XSS record laid out per the documented convention with
`NR = 0`: `NR, NE, NE energies, NE temperatures, NX, NX bin bounds`. -/
def aceC4 : List ℚ := [0, 1, 7, 9, 2, 5, 6]

theorem stEx_wf : stEx.WellFormed := by
  unfold STCoherentElastic.WellFormed stEx
  refine ⟨?_, ?_, ?_⟩ <;> norm_num [List.chain'_cons]

theorem stEx_edges_ne_nil : stEx.bragg_edges ≠ [] := by
  simp [stEx]

/-- C1 (amended): for a non-empty Bragg-edge table, `xs` returns 0 at
every energy strictly below the first Bragg edge. -/
theorem xs_below_first_edge (st : STCoherentElastic)
    (hne : st.bragg_edges ≠ []) (E : ℚ) (hE : E < front st.bragg_edges) :
    xs st E = 0 := by
  have hlen : ¬st.bragg_edges.length = 0 := fun hl => hne (List.length_eq_zero.mp hl)
  have hnot : ¬(front st.bragg_edges < E ∧ E < back st.bragg_edges) :=
    fun h => absurd h.1 (not_lt.mpr (le_of_lt hE))
  unfold xs
  rw [if_neg hlen, if_neg hnot, if_pos hE]

/-- Witness for C1 on the spec's example table at `E = 1/4`. -/
theorem xs_below_first_edge_witness :
    stEx.bragg_edges ≠ [] ∧ (1/4 : ℚ) < front stEx.bragg_edges ∧
    xs stEx (1/4) = 0 :=
  ⟨stEx_edges_ne_nil, by norm_num [stEx, front],
   xs_below_first_edge stEx stEx_edges_ne_nil (1/4) (by norm_num [stEx, front])⟩

/-- C1 counterexample: on the well-formed example table the energy `E = 1`
satisfies `E ≤ first Bragg edge`, yet `xs` falls into the above-range
branch and returns `structure_factor_sum.back / E = 30`, not 0. -/
theorem xs_at_first_edge_ne_zero :
    stEx.WellFormed ∧ (1 : ℚ) ≤ front stEx.bragg_edges ∧
    xs stEx 1 = 30 ∧ (30 : ℚ) ≠ 0 := by
  refine ⟨stEx_wf, by norm_num [stEx, front], ?_, by norm_num⟩
  norm_num [xs, stEx, front, back, lowerBound]

/-- C6: worked cross-section values on the example table
(`bragg_edges = [1,2,3]`, `structure_factor_sum = [10,20,30]`), and
`xs ≡ 0` for a table holding zero Bragg edges. -/
theorem xs_spec_examples :
    xs stEx (1/2) = 0 ∧ xs stEx (3/2) = 10 / (3/2) ∧ xs stEx 5 = 30 / 5 ∧
    ∀ st : STCoherentElastic, st.bragg_edges = [] → ∀ E, xs st E = 0 := by
  refine ⟨?_, ?_, ?_, ?_⟩
  · norm_num [xs, stEx, front, back, lowerBound]
  · norm_num [xs, stEx, front, back, lowerBound]
  · norm_num [xs, stEx, front, back, lowerBound]
  · intro st h E
    simp [xs, h]

/-- Witness for C6's zero-edge clause at a concrete empty table. -/
theorem xs_spec_examples_witness : xs stEmpty 7 = 0 :=
  xs_spec_examples.2.2.2 stEmpty rfl 7

/-- C7: sampled cosines at the spec's boundary energies on the example
table; `E_out = E_in` on every non-empty table; zero-edge fallback
`(mu, E_out) = (1, 0)`. -/
theorem sample_angle_energy_spec_examples :
    (∀ rng, (sample_angle_energy stEx (1/2) rng).1 = 1) ∧
    (∀ rng, (sample_angle_energy stEx (3/2) rng).1 = 1 - 2 / (3/2)) ∧
    (∀ rng, (sample_angle_energy stEx 5 rng).1 = 1 - 6 / 5) ∧
    (∀ st : STCoherentElastic, st.bragg_edges ≠ [] →
      ∀ E_in rng, (sample_angle_energy st E_in rng).2 = E_in) ∧
    (∀ st : STCoherentElastic, st.bragg_edges = [] →
      ∀ E_in rng, sample_angle_energy st E_in rng = (1, 0)) := by
  refine ⟨?_, ?_, ?_, ?_, ?_⟩
  · intro rng
    norm_num [sample_angle_energy, braggEi, stEx, front, back, lowerBound]
  · intro rng
    norm_num [sample_angle_energy, braggEi, stEx, front, back, lowerBound]
  · intro rng
    norm_num [sample_angle_energy, braggEi, stEx, front, back, lowerBound]
  · intro st h E_in rng
    have hlen : ¬st.bragg_edges.length = 0 := fun hl => h (List.length_eq_zero.mp hl)
    simp [sample_angle_energy, hlen]
  · intro st h E_in rng
    simp [sample_angle_energy, h]

/-- Witness for C7's elastic-energy clause at a concrete table and energy. -/
theorem sample_angle_energy_spec_examples_witness :
    (sample_angle_energy stEx 2 (fun _ => 0)).2 = 2 :=
  sample_angle_energy_spec_examples.2.2.2.1 stEx stEx_edges_ne_nil 2 (fun _ => 0)

/-- C9: `angle_pdf` and `pdf` return the empty optional on every input. -/
theorem angle_pdf_pdf_unavailable :
    ∀ (st : STCoherentElastic) (E_in mu E_out : ℚ),
      angle_pdf st E_in mu = none ∧ pdf st E_in mu E_out = none :=
  fun _ _ _ _ => ⟨rfl, rfl⟩

theorem braggEi_nonneg (st : STCoherentElastic) (E_in : ℚ)
    (h : ∀ e ∈ st.bragg_edges, 0 ≤ e) : 0 ≤ braggEi st E_in := by
  unfold braggEi back
  split_ifs
  · exact getD_nonneg _ _ h
  · exact le_refl 0
  · exact getD_nonneg _ _ h

theorem braggEi_le (st : STCoherentElastic) (E_in : ℚ)
    (hne : st.bragg_edges ≠ []) (hE : 0 < E_in)
    (hfr : E_in ≠ front st.bragg_edges) : braggEi st E_in ≤ E_in := by
  unfold braggEi
  split_ifs with h1 h2
  · have hlb : 1 ≤ lowerBound st.bragg_edges E_in :=
      one_le_lowerBound _ _ hne h1.1
    exact le_of_lt (getD_lt_of_lt_lowerBound _ _ _ _
      (Nat.sub_lt (lt_of_lt_of_le one_pos hlb) one_pos))
  · exact le_of_lt hE
  · have hfr' : front st.bragg_edges < E_in :=
      lt_of_le_of_ne (not_lt.mp h2) (Ne.symm hfr)
    have : ¬E_in < back st.bragg_edges := fun hb => h1 ⟨hfr', hb⟩
    exact le_of_not_lt (fun hb => this hb)

/-- C2 (amended): on a well-formed non-empty table and for `E_in > 0` not
exactly equal to the first Bragg edge, `sample_angle_energy` returns a
cosine in `[-1, 1]` and a nonnegative outgoing energy.  (At `E_in` equal
to the first edge the high branch is taken and `mu = 1 - 2·back/E_in` may
fall below `-1`.) -/
theorem sample_angle_energy_range (st : STCoherentElastic)
    (hw : st.WellFormed) (hne : st.bragg_edges ≠ []) (E_in : ℚ)
    (hE : 0 < E_in) (hfr : E_in ≠ front st.bragg_edges) (rng : ℕ → ℚ) :
    -1 ≤ (sample_angle_energy st E_in rng).1 ∧
    (sample_angle_energy st E_in rng).1 ≤ 1 ∧
    0 ≤ (sample_angle_energy st E_in rng).2 := by
  have hlen : ¬st.bragg_edges.length = 0 := fun hl => hne (List.length_eq_zero.mp hl)
  have h0 : 0 ≤ braggEi st E_in := braggEi_nonneg st E_in hw.2.1
  have h1 : braggEi st E_in ≤ E_in := braggEi_le st E_in hne hE hfr
  have hdiv0 : 0 ≤ braggEi st E_in / E_in := div_nonneg h0 (le_of_lt hE)
  have hdiv1 : braggEi st E_in / E_in ≤ 1 := (div_le_one hE).mpr h1
  simp only [sample_angle_energy, if_neg hlen, mul_div_assoc]
  exact ⟨by linarith, by linarith, le_of_lt hE⟩

/-- Witness for C2 on the spec's example table at `E_in = 5`. -/
theorem sample_angle_energy_range_witness :
    -1 ≤ (sample_angle_energy stEx 5 (fun _ => 0)).1 ∧
    (sample_angle_energy stEx 5 (fun _ => 0)).1 ≤ 1 ∧
    0 ≤ (sample_angle_energy stEx 5 (fun _ => 0)).2 :=
  sample_angle_energy_range stEx stEx_wf stEx_edges_ne_nil 5 (by norm_num)
    (by norm_num [stEx, front]) (fun _ => 0)

/-- C2 counterexample: on the well-formed example table, at
`E_in = 1 > 0` (exactly the first Bragg edge) the sampled cosine is
`1 - 2·3/1 = -5`, outside `[-1, 1]`. -/
theorem sample_angle_energy_mu_out_of_range :
    stEx.WellFormed ∧ stEx.bragg_edges ≠ [] ∧ (0 : ℚ) < 1 ∧
    (sample_angle_energy stEx 1 (fun _ => 0)).1 = -5 ∧ (-5 : ℚ) < -1 := by
  refine ⟨stEx_wf, stEx_edges_ne_nil, by norm_num, ?_, by norm_num⟩
  norm_num [sample_angle_energy, braggEi, stEx, front, back, lowerBound]

/-- C3 (amended): for `E` strictly between the first and last Bragg edge,
`xs(E) = structure_factor_sum[l] / E` where `l` is the index of the
greatest Bragg edge strictly less than `E` (the bracket
`(bragg_edges[l], bragg_edges[l+1]]`); in particular for `E` exactly equal
to an interior edge `bragg_edges[i]`, `xs` uses
`structure_factor_sum[i-1]`, not `structure_factor_sum[i]`. -/
theorem xs_mid_bracket (st : STCoherentElastic) (hw : st.WellFormed)
    (E : ℚ) (h1 : front st.bragg_edges < E) (h2 : E < back st.bragg_edges) :
    (∃ l, l + 1 < st.bragg_edges.length ∧
        st.bragg_edges.getD l 0 < E ∧ E ≤ st.bragg_edges.getD (l + 1) 0 ∧
        xs st E = st.structure_factor_sum.getD l 0 / E) ∧
    (∀ i, i + 1 < st.bragg_edges.length → st.bragg_edges.getD i 0 = E →
        0 < i ∧ xs st E = st.structure_factor_sum.getD (i - 1) 0 / E) := by
  have hne : st.bragg_edges ≠ [] := by
    intro h
    rw [h] at h1 h2
    simp [front, back] at h1 h2
    linarith
  have hlen : ¬st.bragg_edges.length = 0 := fun hl => hne (List.length_eq_zero.mp hl)
  have hlenpos : 0 < st.bragg_edges.length := Nat.pos_of_ne_zero hlen
  set lb := lowerBound st.bragg_edges E with hlbdef
  have hlb1 : 1 ≤ lb := one_le_lowerBound _ _ hne h1
  have hlb2 : lb ≤ st.bragg_edges.length - 1 :=
    lowerBound_le_of_le _ E _ 0 (Nat.sub_lt hlenpos one_pos) (le_of_lt h2)
  have hlblt : lb < st.bragg_edges.length :=
    lt_of_le_of_lt hlb2 (Nat.sub_lt hlenpos one_pos)
  have hxs : xs st E = st.structure_factor_sum.getD (lb - 1) 0 / E := by
    unfold xs
    rw [if_neg hlen, if_pos ⟨h1, h2⟩]
  have hcancel : lb - 1 + 1 = lb := Nat.sub_add_cancel hlb1
  constructor
  · refine ⟨lb - 1, ?_, ?_, ?_, hxs⟩
    · rw [hcancel]; exact hlblt
    · exact getD_lt_of_lt_lowerBound _ _ _ _
        (Nat.sub_lt (lt_of_lt_of_le one_pos hlb1) one_pos)
    · rw [hcancel]
      exact le_getD_lowerBound _ _ _ hlblt
  · intro i hi hieq
    have hilen : i < st.bragg_edges.length := lt_trans (Nat.lt_succ_self i) hi
    have hipos : 0 < i := by
      rcases Nat.eq_zero_or_pos i with h0 | h0
      · exfalso
        rw [h0] at hieq
        exact absurd h1 (by rw [front, hieq]; exact lt_irrefl E)
      · exact h0
    have hle1 : lb ≤ i := lowerBound_le_of_le _ E i 0 hilen (le_of_eq hieq.symm)
    have hle2 : i ≤ lb := by
      refine le_lowerBound_of_lt _ E i (le_of_lt hilen) ?_
      intro j hj
      rw [← hieq]
      exact chain'_lt_getD _ hw.1 j i hj hilen
    have : lb = i := le_antisymm hle1 hle2
    rw [hxs, this]
    exact ⟨hipos, rfl⟩

/-- Witness for C3: the bracketing index on the example table at
`E = 3/2`. -/
theorem xs_mid_bracket_witness :
    ∃ l, l + 1 < stEx.bragg_edges.length ∧
      stEx.bragg_edges.getD l 0 < 3/2 ∧
      (3/2 : ℚ) ≤ stEx.bragg_edges.getD (l + 1) 0 ∧
      xs stEx (3/2) = stEx.structure_factor_sum.getD l 0 / (3/2) :=
  (xs_mid_bracket stEx stEx_wf (3/2) (by norm_num [stEx, front])
    (by norm_num [stEx, back])).1

/-- C3 counterexample: at `E = 2`, exactly the interior Bragg edge of
index 1 of the well-formed example table, `xs` returns
`structure_factor_sum[0]/2 = 5`, not `structure_factor_sum[1]/2 = 10` as
the greatest-edge-`≤ E` rule would demand. -/
theorem xs_at_interior_edge_uses_lower_index :
    stEx.WellFormed ∧ front stEx.bragg_edges < 2 ∧
    (2 : ℚ) < back stEx.bragg_edges ∧ stEx.bragg_edges.getD 1 0 = 2 ∧
    xs stEx 2 = 5 ∧ stEx.structure_factor_sum.getD 1 0 / 2 = 10 ∧
    (5 : ℚ) ≠ 10 := by
  refine ⟨stEx_wf, by norm_num [stEx, front], by norm_num [stEx, back],
    by norm_num [stEx], ?_, by norm_num [stEx], by norm_num⟩
  norm_num [xs, stEx, front, back, lowerBound]

/-- C4: evaluation of the constructor's offset arithmetic on a record laid
out per the documented convention (`NR = 0`, `NE = 1`, energies `[7]`,
temperatures `[9]`, `NX = 2`, bin bounds `[5, 6]`).  Every field up to and
including the count `NX` is read as the layout states, but the `NX`
bin-bound values are read starting at the offset of the count itself, so
the resulting `bin_bounds` is `[2, 5]` — its first entry is the count —
instead of `[5, 6]`. -/
theorem generalEvaporation_layout_bug :
    (generalEvaporationInit aceC4 0).NR = 0 ∧
    (generalEvaporationInit aceC4 0).NBT = [1] ∧
    (generalEvaporationInit aceC4 0).INT = [Interpolation.LinLin] ∧
    (generalEvaporationInit aceC4 0).energy = [7] ∧
    (generalEvaporationInit aceC4 0).temperature = [9] ∧
    (generalEvaporationInit aceC4 0).NX = 2 ∧
    (generalEvaporationInit aceC4 0).bin_bounds = [2, 5] ∧
    (generalEvaporationInit aceC4 0).bin_bounds ≠ [5, 6] := by
  have h2 : Int.toNat 2 = 2 := rfl
  refine ⟨?_, ?_, ?_, ?_, ?_, ?_, ?_, ?_⟩ <;>
    norm_num [generalEvaporationInit, aceC4, xssN, xssRange, xssNRange,
      xssIRange, Interpolation.fromCode, h2]

/-- C5 (amended): with `n = bin_bounds.length`, every table access of
`sample_energy` is in bounds provided `0 ≤ ξ1 < (n-1)/n`; the claimed
precondition `ξ1 ∈ [0, 1)` is not enough, since
`ξ1 ∈ [(n-1)/n, 1)` selects `bin = n - 1` and the access
`bin_bounds[bin + 1]` is out of range. -/
theorem sample_energy_in_bounds (ge : GeneralEvaporation)
    (hchain : List.Chain' (· < ·) ge.bin_bounds)
    (hlen : 2 ≤ ge.bin_bounds.length) (E_in : ℚ) (rng : ℕ → ℚ) (k : ℕ)
    (h1 : 0 ≤ rng k)
    (h2 : rng k <
      ((ge.bin_bounds.length : ℚ) - 1) / (ge.bin_bounds.length : ℚ))
    (h3 : 0 ≤ rng (k + 1)) (h4 : rng (k + 1) < 1) :
    ∃ x, (sample_energy ge E_in rng k).1 = some x := by
  have hnpos : (0 : ℚ) < (ge.bin_bounds.length : ℚ) := by
    exact_mod_cast lt_of_lt_of_le two_pos hlen
  have hmul : (ge.bin_bounds.length : ℚ) * rng k <
      (ge.bin_bounds.length : ℚ) - 1 := by
    have := mul_lt_mul_of_pos_left h2 hnpos
    rwa [mul_div_cancel₀ _ (ne_of_gt hnpos)] at this
  have hfl : ⌊(ge.bin_bounds.length : ℚ) * rng k⌋ <
      (ge.bin_bounds.length : ℤ) - 1 := by
    rw [Int.floor_lt]
    push_cast
    exact hmul
  have hbin : evapBin ge.bin_bounds (rng k) + 1 < ge.bin_bounds.length := by
    unfold evapBin
    omega
  have hbin0 : evapBin ge.bin_bounds (rng k) < ge.bin_bounds.length :=
    lt_trans (Nat.lt_succ_self _) hbin
  obtain ⟨lo, hlo⟩ :
      ∃ lo, ge.bin_bounds[evapBin ge.bin_bounds (rng k)]? = some lo :=
    ⟨_, List.getElem?_eq_getElem hbin0⟩
  obtain ⟨up, hup⟩ :
      ∃ up, ge.bin_bounds[evapBin ge.bin_bounds (rng k) + 1]? = some up :=
    ⟨_, List.getElem?_eq_getElem hbin⟩
  exact ⟨((up - lo) * rng (k + 1) + lo) * ge.temperature E_in,
    by simp [sample_energy, evapChi, hlo, hup]⟩

/-- Witness for C5 on the example bin table with `ξ1 = 1/2 < 2/3`. -/
theorem sample_energy_in_bounds_witness :
    ∃ x, (sample_energy geEx 1 (fun _ => 1/2) 0).1 = some x :=
  sample_energy_in_bounds geEx (by norm_num [geEx, List.chain'_cons])
    (by norm_num [geEx]) 1 (fun _ => 1/2) 0 (by norm_num)
    (by norm_num [geEx]) (by norm_num) (by norm_num)

/-- C5 counterexample: on `bin_bounds = [0, 1, 2]` (strictly increasing,
length 3 ≥ 2) the variates `ξ1 = 9/10` and `ξ2 = 0` both lie in `[0, 1)`,
yet the selected bin is `⌊3 · 9/10⌋ = 2` and the access
`bin_bounds[3]` is out of range: the embedded indexing takes its
out-of-range branch and the sample is `none`. -/
theorem sample_energy_out_of_range :
    List.Chain' (· < ·) geEx.bin_bounds ∧ 2 ≤ geEx.bin_bounds.length ∧
    (0 : ℚ) ≤ 9/10 ∧ (9/10 : ℚ) < 1 ∧ (0 : ℚ) ≤ 0 ∧ (0 : ℚ) < 1 ∧
    evapBin geEx.bin_bounds (9/10) = 2 ∧
    (sample_energy geEx 1 (fun n => if n = 0 then 9/10 else 0) 0).1 =
      none := by
  have ht : Int.toNat 2 = 2 := rfl
  have hbin : evapBin ([0, 1, 2] : List ℚ) (9/10) = 2 := by
    have hf : (⌊(27 : ℚ)/10⌋ : ℤ) = 2 := by norm_num
    norm_num [evapBin, hf, ht]
  have hchi : evapChi ([0, 1, 2] : List ℚ) (9/10) 0 = none := by
    simp only [evapChi, hbin]
    rfl
  refine ⟨by norm_num [geEx, List.chain'_cons], by norm_num [geEx],
    by norm_num, by norm_num, le_refl 0, by norm_num, hbin, ?_⟩
  simp only [sample_energy]
  norm_num [geEx, hchi]

/-- C8: on `bin_bounds = [0, 1, 2]` with `T(E_in) = 2`, the variates
`ξ1 = 1/10`, `ξ2 = 1/2` select bin 0, produce `χ = 1/2` and the sample
`E_out = 1`; the call advances the draw counter by exactly two, the first
draw feeding the bin selection and the second the intra-bin
interpolation, and the result depends on no draw other than those two. -/
theorem sample_energy_spec_example (T : ℚ → ℚ) (E_in : ℚ) (hT : T E_in = 2)
    (rng : ℕ → ℚ) (k : ℕ) (h1 : rng k = 1/10) (h2 : rng (k + 1) = 1/2) :
    evapBin (GeneralEvaporation.mk T [0, 1, 2]).bin_bounds (rng k) = 0 ∧
    evapChi (GeneralEvaporation.mk T [0, 1, 2]).bin_bounds (rng k)
      (rng (k + 1)) = some (1/2) ∧
    sample_energy (GeneralEvaporation.mk T [0, 1, 2]) E_in rng k =
      (some 1, k + 2) ∧
    (∀ rng' : ℕ → ℚ, rng' k = rng k → rng' (k + 1) = rng (k + 1) →
      sample_energy (GeneralEvaporation.mk T [0, 1, 2]) E_in rng' k =
        sample_energy (GeneralEvaporation.mk T [0, 1, 2]) E_in rng k) := by
  have hbin : evapBin (GeneralEvaporation.mk T [0, 1, 2]).bin_bounds
      (rng k) = 0 := by
    rw [h1]
    have : (⌊(3 : ℚ)/10⌋ : ℤ) = 0 := by norm_num
    norm_num [evapBin, this]
  have hchi : evapChi (GeneralEvaporation.mk T [0, 1, 2]).bin_bounds
      (rng k) (rng (k + 1)) = some (1/2) := by
    rw [evapChi, hbin, h2]
    norm_num
  refine ⟨hbin, hchi, ?_, ?_⟩
  · simp only [sample_energy, hchi, hT, Option.map_some']
    norm_num
  · intro rng' hk hk1
    simp only [sample_energy, hk, hk1]

/-- Witness for C8 with the constant temperature law `T ≡ 2` and a
concrete scripted variate stream. -/
theorem sample_energy_spec_example_witness :
    sample_energy
      (GeneralEvaporation.mk (fun _ => 2) [0, 1, 2]) 0
      (fun n => if n = 0 then 1/10 else 1/2) 0 = (some 1, 0 + 2) :=
  (sample_energy_spec_example (fun _ => 2) 0 rfl
    (fun n => if n = 0 then 1/10 else 1/2) 0 rfl rfl).2.2.1

/-- C10: `sample_energy` factorizes as `χ(ξ1, ξ2, bin_bounds) × T(E_in)`:
the dimensionless factor depends on the variates and the bin bounds only,
so the incident energy enters only through `T(E_in)`; consequently two
calls on the same variate stream at incident energies `E1, E2` give
results in the ratio `T(E1)/T(E2)` whenever `T(E2) ≠ 0` and the ratio is
defined (nonzero denominator sample). -/
theorem sample_energy_factorizes (ge : GeneralEvaporation) (E1 E2 : ℚ)
    (rng : ℕ → ℚ) (k : ℕ) :
    (sample_energy ge E1 rng k).1 =
      (evapChi ge.bin_bounds (rng k) (rng (k + 1))).map
        (fun chi => chi * ge.temperature E1) ∧
    (ge.temperature E2 ≠ 0 → ∀ x1 x2,
      (sample_energy ge E1 rng k).1 = some x1 →
      (sample_energy ge E2 rng k).1 = some x2 → x2 ≠ 0 →
      x1 / x2 = ge.temperature E1 / ge.temperature E2) := by
  refine ⟨rfl, ?_⟩
  intro hT2 x1 x2 hx1 hx2 hx2ne
  simp only [sample_energy] at hx1 hx2
  cases hchi : evapChi ge.bin_bounds (rng k) (rng (k + 1)) with
  | none =>
      rw [hchi] at hx1
      simp at hx1
  | some chi =>
      rw [hchi] at hx1 hx2
      simp only [Option.map_some', Option.some.injEq] at hx1 hx2
      have hchine : chi ≠ 0 := by
        intro h0
        apply hx2ne
        rw [← hx2, h0, zero_mul]
      rw [← hx1, ← hx2]
      exact mul_div_mul_left _ _ hchine

/-- Witness for C10 with `T(E) = E` on the example bin table:
`ξ1 = ξ2 = 1/2` give `χ = 3/2`, and the instantiated ratio
`(9/2) / 3 = 3/2 = T(3)/T(2)`. -/
theorem sample_energy_factorizes_witness :
    (9/2 : ℚ) / 3 =
      ((GeneralEvaporation.mk (fun E => E) [0, 1, 2]).temperature 3) /
      ((GeneralEvaporation.mk (fun E => E) [0, 1, 2]).temperature 2) := by
  have hbin : evapBin [0, 1, 2] (1/2) = 1 := by
    have : (⌊(3 : ℚ)/2⌋ : ℤ) = 1 := by norm_num
    norm_num [evapBin, this]
  have hchi : evapChi [0, 1, 2] (1/2) (1/2) = some (3/2) := by
    rw [evapChi, hbin]
    norm_num
  refine (sample_energy_factorizes (GeneralEvaporation.mk (fun E => E)
      [0, 1, 2]) 3 2 (fun _ => 1/2) 0).2 (by norm_num) (9/2) 3 ?_ ?_
      (by norm_num)
  · simp only [sample_energy, hchi, Option.map_some']
    norm_num
  · simp only [sample_energy, hchi, Option.map_some']
    norm_num

end PapillonNDL
